import Mathlib

/-!
Verification of the juicebox-asm x86-64 jit assembler against its
natural-language specification.  The Rust sources are shallowly embedded:
byte buffers are `List Nat` (each element a byte value), fallible
operations (Rust panics / `unimplemented!`) return `Option` or an explicit
error constructor, and machine integers are `Nat`/`Int` with explicit
`% 2^w` arithmetic where wrap-around matters.
-/

namespace JB

/-! ## Byte-level primitives (src/asm.rs, src/lib.rs)

`rex`, `modrm` and `sib` mirror the `const fn`s of the same names.  The
bit fields are disjoint, so the Rust bit-or is a plain sum here. -/

/-- `rex(w, r, x, b)` from src/asm.rs: `0b0100_0000 | w<<3 | ((r>>3)&1)<<2
| ((x>>3)&1)<<1 | ((b>>3)&1)`. -/
def rexByte (w : Bool) (r x b : Nat) : Nat :=
  64 + (if w then 8 else 0) + ((r / 8) % 2) * 4 + ((x / 8) % 2) * 2 + ((b / 8) % 2)

/-- `modrm(mod_, reg, rm)` from src/asm.rs. -/
def modrmByte (md reg rm : Nat) : Nat :=
  (md % 4) * 64 + (reg % 8) * 8 + (rm % 8)

/-- `sib(scale, index, base)` from src/asm.rs. -/
def sibByte (scale index base : Nat) : Nat :=
  (scale % 4) * 64 + (index % 8) * 8 + (base % 8)

/-! ## Little-endian byte serialization

Rust `to_ne_bytes` is native-endian; the byte order is made an explicit
parameter so that platform dependence is expressible. -/

/-- Little-endian bytes of `v`, `n` bytes wide. -/
def leBytes : Nat → Nat → List Nat
  | 0, _ => []
  | n + 1, v => (v % 256) :: leBytes n (v / 256)

/-- Two's-complement little-endian bytes of the integer `x`, `n` bytes wide
(models `iN::to_ne_bytes` on a little-endian host). -/
def intBytesLE (n : Nat) (x : Int) : List Nat :=
  leBytes n ((x.emod ((2 : Int) ^ (8 * n))).toNat)

/-- Host byte order. -/
inductive ByteOrder where
  | le
  | be
deriving DecidableEq

/-- `to_ne_bytes` of an unsigned value on a host with byte order `e`. -/
def neBytes (e : ByteOrder) (n v : Nat) : List Nat :=
  match e with
  | .le => leBytes n v
  | .be => (leBytes n v).reverse

/-- Value of a little-endian byte list. -/
def leVal : List Nat → Nat
  | [] => 0
  | b :: rest => b + 256 * leVal rest

/-- Signed (two's-complement) reading of a little-endian byte list. -/
def leSigned (bs : List Nat) : Int :=
  let v := leVal bs
  if 2 * v < 2 ^ (8 * bs.length) then (v : Int) else (v : Int) - 2 ^ (8 * bs.length)

/-! ## Registers

Modelled from the spec: the file src/reg.rs is declared (`mod reg;` in
src/lib.rs) but absent from the sources; the register families and the
predicates `idx`, `is_ext`, `need_rex`, `rexw`, `need_sib`, `is_pc_rel`
follow spec.md §3 "Registers" (indices 0..=15; `is_ext` for 8..=15;
`need_rex` for 64-bit, extended, or new low-byte 8-bit registers;
`need_sib` for the RSP/R12 lineage; `is_pc_rel` for the RBP/R13 lineage),
consistent with the encodings asserted by src/tests/mov.rs. -/

/-- 64-bit general-purpose registers. -/
inductive Reg64 where
  | rax | rcx | rdx | rbx | rsp | rbp | rsi | rdi
  | r8 | r9 | r10 | r11 | r12 | r13 | r14 | r15
deriving DecidableEq

namespace Reg64

/-- 4-bit encoding index. -/
def idx : Reg64 → Nat
  | rax => 0 | rcx => 1 | rdx => 2 | rbx => 3
  | rsp => 4 | rbp => 5 | rsi => 6 | rdi => 7
  | r8 => 8 | r9 => 9 | r10 => 10 | r11 => 11
  | r12 => 12 | r13 => 13 | r14 => 14 | r15 => 15

/-- Extended registers (encoding indices 8..=15). -/
def is_ext (r : Reg64) : Bool := 8 ≤ r.idx

/-- RSP/R12 lineage: the `rm=100` encoding collides with the SIB escape. -/
def need_sib (r : Reg64) : Bool := r = rsp ∨ r = r12

/-- RBP/R13 lineage: `mod=00, rm=101` collides with RIP-relative disp32. -/
def is_pc_rel (r : Reg64) : Bool := r = rbp ∨ r = r13

end Reg64

/-- 8-bit general-purpose registers (legacy high-byte AH/CH/DH/BH share
encoding indices 4..=7 with the REX-requiring new low-byte registers). -/
inductive Reg8 where
  | al | cl | dl | bl | spl | bpl | sil | dil
  | r8l | r9l | r10l | r11l | r12l | r13l | r14l | r15l
  | ah | ch | dh | bh
deriving DecidableEq

namespace Reg8

/-- 4-bit encoding index. -/
def idx : Reg8 → Nat
  | al => 0 | cl => 1 | dl => 2 | bl => 3
  | spl => 4 | bpl => 5 | sil => 6 | dil => 7
  | r8l => 8 | r9l => 9 | r10l => 10 | r11l => 11
  | r12l => 12 | r13l => 13 | r14l => 14 | r15l => 15
  | ah => 4 | ch => 5 | dh => 6 | bh => 7

/-- Extended registers (encoding indices 8..=15, i.e. R8L..R15L). -/
def is_ext : Reg8 → Bool
  | r8l | r9l | r10l | r11l | r12l | r13l | r14l | r15l => true
  | _ => false

/-- The register alone mandates a REX prefix: extended registers and the
new low-byte registers SPL/BPL/SIL/DIL (spec.md §3). -/
def need_rex : Reg8 → Bool
  | spl | bpl | sil | dil => true
  | r8l | r9l | r10l | r11l | r12l | r13l | r14l | r15l => true
  | _ => false

end Reg8

/-! ## Immediate construction (src/imm.rs)

`impl_imm!` generates `From` impls that zero a `$size` byte buffer, then
copy `imm.to_ne_bytes()` of the narrower source into its low bytes. -/

/-- The `From` impl body of src/imm.rs: zeroed target buffer with the
source bytes copied into the low positions. -/
def immFrom (size : Nat) (src : List Nat) : List Nat :=
  src ++ List.replicate (size - src.length) 0

/-- `Imm32::from(x: i8)` on a little-endian host. -/
def imm32FromI8 (x : Int) : List Nat :=
  immFrom 4 (intBytesLE 1 x)

/-- `Imm32::from(x: i32)` with host byte order `e`
(src/imm.rs uses `to_ne_bytes`). -/
def imm32FromI32 (e : ByteOrder) (x : Nat) : List Nat :=
  immFrom 4 (neBytes e 4 x)

/-! ## Memory operands (src/mem.rs) -/

/-- Addressing modes of src/mem.rs. -/
inductive AddrMode where
  | indirect
  | indirectDisp
  | indirectBaseIndex
deriving DecidableEq

/-- A memory operand: mode, base, index and displacement (src/mem.rs;
the access-size tag is carried separately as an `is64`/legacy-prefix
parameter by the encoders below). -/
structure MemM where
  mode : AddrMode
  base : Reg64
  index : Reg64
  disp : Int
deriving DecidableEq

/-- `MemN::indirect(base)` from src/mem.rs (zero index is `rax`). -/
def memIndirect (base : Reg64) : MemM :=
  ⟨.indirect, base, .rax, 0⟩

/-- `MemN::indirect_disp(base, disp)` from src/mem.rs. -/
def memIndirectDisp (base : Reg64) (disp : Int) : MemM :=
  ⟨.indirectDisp, base, .rax, disp⟩

/-- `MemN::indirect_base_index(base, index)` from src/mem.rs. -/
def memIndirectBaseIndex (base index : Reg64) : MemM :=
  ⟨.indirectBaseIndex, base, index, 0⟩

/-! ## Memory-form encoders (src/asm.rs)

Each `encode_*` computes the `(mode, rm)` pair first, with the source's
`assert!` guards modelled as `none` (panic) before any byte is produced. -/

/-- The `(mode, rm)` selection shared by `encode_m`, `encode_mi` and
`encode_mr` in src/asm.rs, including the `assert!` guards; `none` models
the panic. -/
def encModRM (op1 : MemM) : Option (Nat × Nat) :=
  match op1.mode with
  | .indirect =>
      if op1.base.need_sib ∨ op1.base.is_pc_rel then none
      else some (0, op1.base.idx)
  | .indirectDisp =>
      if op1.base.need_sib then none
      else some (2, op1.base.idx)
  | .indirectBaseIndex =>
      if op1.base.is_pc_rel ∨ op1.index = Reg64.rsp then none
      else some (0, 4)

/-- `emit_optional` of src/asm.rs for a single optional byte. -/
def optList (o : Option Nat) : List Nat :=
  match o with
  | none => []
  | some b => [b]

/-- `EncodeM::rex` of src/asm.rs. -/
def encodeM_rex (is64 : Bool) (op1 : MemM) : Option Nat :=
  if is64 ∨ op1.base.is_ext ∨ op1.index.is_ext then
    some (rexByte is64 0 op1.index.idx op1.base.idx)
  else none

/-- The displacement/SIB tail of the memory-form encoders in src/asm.rs. -/
def memTail (op1 : MemM) : List Nat :=
  match op1.mode with
  | .indirect => []
  | .indirectDisp => intBytesLE 4 op1.disp
  | .indirectBaseIndex => [sibByte 0 op1.index.idx op1.base.idx]

/-- `Asm::encode_m` of src/asm.rs (lines 172..215). -/
def encodeM (is64 : Bool) (pfx : Option Nat) (opc opcExt : Nat) (op1 : MemM) :
    Option (List Nat) :=
  match encModRM op1 with
  | none => none
  | some (md, rm) =>
      some (optList pfx ++ optList (encodeM_rex is64 op1) ++
        [opc, modrmByte md opcExt rm] ++ memTail op1)

/-- `Asm::encode_mi` of src/asm.rs (lines 218..263): as `encode_m`,
followed by the immediate bytes. -/
def encodeMI (is64 : Bool) (pfx : Option Nat) (opc opcExt : Nat) (op1 : MemM)
    (imm : List Nat) : Option (List Nat) :=
  match encModRM op1 with
  | none => none
  | some (md, rm) =>
      some (optList pfx ++ optList (encodeM_rex is64 op1) ++
        [opc, modrmByte md opcExt rm] ++ memTail op1 ++ imm)

/-- `EncodeMR::rex` of src/asm.rs (lines 391..408): REX is emitted iff the
memory operand is 64-bit, the register operand is extended, or base/index
are extended.  Note: unlike the older revision in src/lib.rs it does not
consult the register operand's `need_rex`. -/
def encodeMR_rex (is64 : Bool) (op1 : MemM) (regIdx : Nat) (regExt : Bool) :
    Option Nat :=
  if is64 ∨ regExt ∨ op1.base.is_ext ∨ op1.index.is_ext then
    some (rexByte is64 regIdx op1.index.idx op1.base.idx)
  else none

/-- `EncodeMR::rex` of the older revision in src/lib.rs (lines 283..295):
`op2.need_rex() || op1.base().is_ext()`, instantiated at `Reg8`
(`rexw` of an 8-bit register is false, there is no index register). -/
def encodeMR_rex_old (op2 : Reg8) (base : Reg64) : Option Nat :=
  if op2.need_rex ∨ base.is_ext then
    some (rexByte false op2.idx 0 base.idx)
  else none

/-- `Asm::encode_mr` of src/asm.rs (lines 266..310). -/
def encodeMR (is64 : Bool) (pfx : Option Nat) (opc : Nat) (op1 : MemM)
    (regIdx : Nat) (regExt : Bool) : Option (List Nat) :=
  match encModRM op1 with
  | none => none
  | some (md, rm) =>
      some (optList pfx ++ optList (encodeMR_rex is64 op1 regIdx regExt) ++
        [opc, modrmByte md regIdx rm] ++ memTail op1)

/-- `Asm::encode_rm` of src/asm.rs (lines 313..321): `encode_mr` with the
operand positions swapped. -/
def encodeRM (is64 : Bool) (pfx : Option Nat) (opc : Nat) (regIdx : Nat)
    (regExt : Bool) (op2 : MemM) : Option (List Nat) :=
  encodeMR is64 pfx opc op2 regIdx regExt

/-- `Mov<Mem8, Reg8>` of src/insn/mov.rs: `encode_mr(0x88, op1, op2)`
(8-bit: no REX.W, no legacy prefix). -/
def movMem8Reg8 (op1 : MemM) (op2 : Reg8) : Option (List Nat) :=
  encodeMR false none 0x88 op1 op2.idx op2.is_ext

/-- `Sub<MemOp, Imm8>` of src/insn/sub.rs: `encode_mi(0x83, 5, op1, op2)`
(untyped memory operand, treated as non-64-bit: no REX.W, no prefix). -/
def subMemImm8 (op1 : MemM) (imm : Nat) : Option (List Nat) :=
  encodeMI false none 0x83 5 op1 [imm % 256]

/-- `Mov<Reg32, Imm32>` of src/insn/mov.rs via `Asm::encode_oi` at
`op1 = edi` (idx 7, not extended, no REX), with host byte order `e`:
opcode `0xb8 + (7 & 7)` followed by the immediate bytes. -/
def movEdiImm32 (e : ByteOrder) (v : Nat) : List Nat :=
  [0xb8 + 7] ++ imm32FromI32 e v

/-! ## Labels and the assembler buffer (src/label.rs, src/asm.rs)

The assembler owns a byte buffer; labels carry an optional bound location
and a set of fix-up offsets (modelled as a duplicate-free list).  Panics
(`assert!`, `expect`) and the `unimplemented!()` branch of `emit_at` are
distinguished error outcomes. -/

/-- Label state: `location` and pending fix-up `offsets` (src/label.rs). -/
structure LabelSt where
  location : Option Nat
  offsets : List Nat
deriving DecidableEq

/-- `Label::new()`. -/
def labelNew : LabelSt := ⟨none, []⟩

/-- `Label::bind(loc)`: panics (`none`) when the label is already bound. -/
def labelBind (lab : LabelSt) (loc : Nat) : Option LabelSt :=
  match lab.location with
  | some _ => none
  | none => some ⟨some loc, lab.offsets⟩

/-- `Label::record_offset(off)`: `HashSet::insert`. -/
def recordOffset (lab : LabelSt) (off : Nat) : LabelSt :=
  ⟨lab.location, if off ∈ lab.offsets then lab.offsets else lab.offsets ++ [off]⟩

/-- The two `assert!`s of `impl Drop for Label` (src/label.rs lines
65..72): dropping succeeds only when bound with no unresolved offsets. -/
def labelDropChk (lab : LabelSt) : Bool :=
  lab.location.isSome && lab.offsets.isEmpty

/-- In-place overwrite of `bytes.length` bytes at `pos`
(`copy_from_slice` in `Asm::emit_at`). -/
def writeAt (buf : List Nat) (pos : Nat) (bs : List Nat) : List Nat :=
  buf.take pos ++ bs ++ buf.drop (pos + bs.length)

/-- `n` bytes of `buf` starting at `pos`. -/
def slice (buf : List Nat) (pos n : Nat) : List Nat :=
  (buf.drop pos).take n

/-- Outcome of a buffer operation: the `unimplemented!()` branch of
`Asm::emit_at` is `oob`, any `assert!`/`expect` failure is `panic`. -/
inductive BRes where
  | ok (buf : List Nat)
  | panic
  | oob
deriving DecidableEq

/-- `Asm::emit_at` (src/asm.rs lines 75..81): in-bounds overwrite, else
the `unimplemented!()` branch. -/
def emitAt (buf : List Nat) (pos : Nat) (bs : List Nat) : BRes :=
  if pos + bs.length ≤ buf.length then .ok (writeAt buf pos bs) else .oob

/-- `i32::MAX + 1`: bound of the `i32::try_from` conversions in
`Asm::resolve`. -/
def i32Max : Nat := 2 ^ 31

/-- The patch value of `Asm::resolve`: little-endian bytes of
`disp32 = loc - off - 4` (two's complement). -/
def dispBytes (loc off : Nat) : List Nat :=
  intBytesLE 4 ((loc : Int) - (off : Int) - 4)

/-- The relocation loop of `Asm::resolve` (src/asm.rs lines 99..107):
each offset is checked against `i32` (`expect` panic) and patched with
`emit_at`. -/
def patchAll (loc : Nat) (offs : List Nat) (buf : List Nat) : BRes :=
  match offs with
  | [] => .ok buf
  | off :: rest =>
      if off < i32Max then
        match emitAt buf off (dispBytes loc off) with
        | .ok buf2 => patchAll loc rest buf2
        | .panic => .panic
        | .oob => .oob
      else .panic

/-- Outcome of `Asm::resolve`. -/
inductive RRes where
  | ok (buf : List Nat) (lab : LabelSt)
  | panic
  | oob
deriving DecidableEq

/-- `Asm::resolve` (src/asm.rs lines 93..109): when bound, check the
location fits `i32`, drain the offsets and patch each one. -/
def resolveL (buf : List Nat) (lab : LabelSt) : RRes :=
  match lab.location with
  | none => .ok buf lab
  | some loc =>
      if loc < i32Max then
        match patchAll loc lab.offsets buf with
        | .ok buf2 => .ok buf2 ⟨some loc, []⟩
        | .panic => .panic
        | .oob => .oob
      else .panic

/-- Assembler state: the byte buffer and the labels in use. -/
structure AsmSt where
  buf : List Nat
  labels : List LabelSt
deriving DecidableEq

/-- Outcome of an assembler operation. -/
inductive SRes where
  | ok (st : AsmSt)
  | panic
  | oob
deriving DecidableEq

/-- `Asm::bind` (src/asm.rs lines 84..90): bind the label to the current
buffer length, then resolve pending relocations. -/
def bindStep (st : AsmSt) (l : Nat) : SRes :=
  match st.labels[l]? with
  | none => .panic
  | some lab =>
      match labelBind lab st.buf.length with
      | none => .panic
      | some lab1 =>
          match resolveL st.buf lab1 with
          | .ok buf2 lab2 => .ok ⟨buf2, st.labels.set l lab2⟩
          | .panic => .panic
          | .oob => .oob

/-- `Asm::encode_jmp_label` (src/asm.rs lines 324..337): emit the opcode,
record the offset of the 4-byte placeholder, emit the zeroed placeholder,
then resolve. -/
def jmpStep (st : AsmSt) (opc : List Nat) (l : Nat) : SRes :=
  match st.labels[l]? with
  | none => .panic
  | some lab =>
      let buf1 := st.buf ++ opc
      let lab1 := recordOffset lab buf1.length
      let buf2 := buf1 ++ [0, 0, 0, 0]
      match resolveL buf2 lab1 with
      | .ok buf3 lab2 => .ok ⟨buf3, st.labels.set l lab2⟩
      | .panic => .panic
      | .oob => .oob

/-- Any append-only emission (`Asm::emit`; covers all non-label
instructions, e.g. `nop` appends `[0x90]`). -/
def emitStep (st : AsmSt) (bs : List Nat) : SRes :=
  .ok ⟨st.buf ++ bs, st.labels⟩

/-- A client program against the public assembler surface. -/
inductive Cmd where
  | emitBytes (bs : List Nat)
  | jmp (opc : List Nat) (l : Nat)
  | bind (l : Nat)

/-- One public operation. -/
def stepCmd (st : AsmSt) : Cmd → SRes
  | .emitBytes bs => emitStep st bs
  | .jmp opc l => jmpStep st opc l
  | .bind l => bindStep st l

/-- Run a program. -/
def runCmds (st : AsmSt) : List Cmd → SRes
  | [] => .ok st
  | c :: rest =>
      match stepCmd st c with
      | .ok st2 => runCmds st2 rest
      | .panic => .panic
      | .oob => .oob

/-- Fresh assembler (`Asm::new`) with `n` fresh labels (`Label::new`). -/
def initSt (n : Nat) : AsmSt :=
  ⟨[], List.replicate n labelNew⟩

/-- The fix-up-set invariant: offsets are pairwise ≥ 4 apart (each was
recorded immediately before its own 4 placeholder bytes) and each has its
4 patch bytes inside the buffer. -/
def OffsOK (len : Nat) (offs : List Nat) : Prop :=
  List.Pairwise (fun a b => a + 4 ≤ b) offs ∧ ∀ o ∈ offs, o + 4 ≤ len

/-- The reachable-state invariant: every label's fix-up set is `OffsOK`
for the current buffer. -/
def Inv (st : AsmSt) : Prop :=
  ∀ (i : Nat) (lab : LabelSt), st.labels[i]? = some lab →
    OffsOK st.buf.length lab.offsets

/-! ## The mmap-ed runtime (src/rt.rs)

The page memory is a `List Nat`, the protection bits an explicit record.
`mprotect` effects inside `add_code` are modelled as the ordered list of
protection values the page goes through during the call. -/

/-- Page protection bits. -/
structure Prot where
  r : Bool
  w : Bool
  x : Bool
deriving DecidableEq

/-- `PROT_NONE` (initial mapping in `Runtime::new`). -/
def protNone : Prot := ⟨false, false, false⟩

/-- `PROT_WRITE` (`Runtime::unprotect`). -/
def protWrite : Prot := ⟨false, true, false⟩

/-- `PROT_READ | PROT_EXEC` (`Runtime::protect`). -/
def protRX : Prot := ⟨true, false, true⟩

/-- `Runtime` state (src/rt.rs): page length, append cursor, page
contents and current protection. -/
structure Runtime where
  len : Nat
  idx : Nat
  mem : List Nat
  prot : Prot
deriving DecidableEq

/-- `Runtime::new()`: one 4096-byte page, `PROT_NONE`. -/
def runtimeNew : Runtime :=
  ⟨4096, 0, List.replicate 4096 0, protNone⟩

/-- `Runtime::add_code` (src/rt.rs lines 129..155).  The source order is
kept: `assert!(idx < len)`, then `assert!(!code.is_empty())`, then
`assert!(code.len() <= len - idx)`, then unprotect/copy/protect and
cursor advance.  `none` models the panic; on panic no `mprotect` has
happened and the copy is not performed.  On success the result carries
the new state and the returned function pointer's offset (`fn_start`),
and the protection trace of the call is `[protWrite, protRX]`. -/
def addCode (rt : Runtime) (code : List Nat) : Option (Runtime × Nat) :=
  if rt.idx < rt.len then
    if code = [] then none
    else if code.length ≤ rt.len - rt.idx then
      some (⟨rt.len, rt.idx + code.length,
        writeAt rt.mem rt.idx code, protRX⟩, rt.idx)
    else none
  else none

/-- The ordered list of protections the page goes through during one
`add_code` call (`unprotect` then `protect`); empty when the call panics
before touching the page. -/
def addCodeTrace (rt : Runtime) (code : List Nat) : List Prot :=
  if rt.idx < rt.len then
    if code = [] then []
    else if code.length ≤ rt.len - rt.idx then [protWrite, protRX]
    else []
  else []

/-- State after an `add_code` call; a panicking call leaves the runtime
unchanged (the asserts precede both `mprotect`s and the copy). -/
def addCodeStep (rt : Runtime) (code : List Nat) : Runtime :=
  match addCode rt code with
  | some (rt2, _) => rt2
  | none => rt

/-- The runtime state after a sequence of `add_code` calls on a fresh
runtime. -/
def runRuntime (codes : List (List Nat)) : Runtime :=
  codes.foldl addCodeStep runtimeNew

/-! ## Theorems -/

/-! ## Theorems on the pure encoder fragments -/

/-- C2: the `From` impls of src/imm.rs copy the narrow source bytes into a
zeroed buffer, so a narrower signed value is zero-extended, not
sign-extended: `Imm32::from(-1i8)` yields `FF 00 00 00`, not the
little-endian two's-complement pattern `FF FF FF FF` of `-1`, and
reinterpreting the bytes as a signed value gives `255`, breaking the
claimed round-trip. -/
theorem imm32_from_i8_zero_extends :
    imm32FromI8 (-1) = [0xff, 0, 0, 0] ∧
    imm32FromI8 (-1) ≠ intBytesLE 4 (-1) ∧
    leSigned (imm32FromI8 (-1)) = 255 ∧
    leSigned (imm32FromI8 (-1)) ≠ -1 := by
  decide

/-- C3 counterexample: `Sub<MemOp, Imm8>` in src/insn/sub.rs calls
`encode_mi(0x83, 5, ..)`: the emitted primary opcode byte for
`sub [rdx], 1` is `0x83`, not `0x80` as claimed. -/
theorem sub_mem_imm8_opcode_not_0x80 :
    subMemImm8 (memIndirect Reg64.rdx) 1 = some [0x83, 0x2a, 1] ∧
    (subMemImm8 (memIndirect Reg64.rdx) 1).map (fun l => l.head?) ≠
      some (some 0x80) := by
  decide

/-- C3 amended: the only memory-immediate SUB in the source takes an
untyped memory operand and emits primary opcode `0x83` with ModR/M.reg
opcode extension `5`, followed by the addressing byte and the one
immediate byte. -/
theorem sub_mem_imm8_amended (b : Reg64) (i : Nat)
    (h1 : b.need_sib = false) (h2 : b.is_pc_rel = false)
    (h3 : b.is_ext = false) :
    subMemImm8 (memIndirect b) i = some [0x83, modrmByte 0 5 b.idx, i % 256] ∧
    modrmByte 0 5 b.idx / 8 % 8 = 5 := by
  cases b <;> simp_all [Reg64.need_sib, Reg64.is_pc_rel, Reg64.is_ext, Reg64.idx] <;>
    exact ⟨rfl, by decide⟩

/-- C3 amended, witness: `sub [rdx], 1`. -/
theorem sub_mem_imm8_amended_witness :
    subMemImm8 (memIndirect Reg64.rdx) 1 =
      some [0x83, modrmByte 0 5 Reg64.rdx.idx, 1 % 256] ∧
    modrmByte 0 5 Reg64.rdx.idx / 8 % 8 = 5 :=
  sub_mem_imm8_amended Reg64.rdx 1 (by decide) (by decide) (by decide)

/-- The `(mode, rm)` selection rejects exactly the operand-mode
violations guarded by `assert!` in src/asm.rs. -/
theorem encModRM_none_of_violation (m : MemM)
    (h : (m.mode = .indirect ∧
            (m.base.need_sib = true ∨ m.base.is_pc_rel = true)) ∨
         (m.mode = .indirectDisp ∧ m.base.need_sib = true) ∨
         (m.mode = .indirectBaseIndex ∧
            (m.index = Reg64.rsp ∨ m.base.is_pc_rel = true))) :
    encModRM m = none := by
  obtain ⟨mo, b, ix, d⟩ := m
  cases mo <;> simp_all [encModRM]
  intro hb
  rcases h with h | h
  · exact h
  · exact absurd h (by simp [hb])

/-- C7: in every memory-operand encoding form (M, MI, MR, RM), an
Indirect operand whose base needs SIB or is PC-relative, an
Indirect+Disp32 operand whose base needs SIB, and a Base+Index operand
with RSP as index or a PC-relative base, are rejected (`none`, modelling
the `assert!` panic) and nothing is emitted. -/
theorem encode_mem_guards (is64 : Bool) (pfx : Option Nat) (opc ext ri : Nat)
    (m : MemM) (imm : List Nat) (re : Bool) :
    (m.mode = .indirect → (m.base.need_sib = true ∨ m.base.is_pc_rel = true) →
      encodeM is64 pfx opc ext m = none ∧
      encodeMI is64 pfx opc ext m imm = none ∧
      encodeMR is64 pfx opc m ri re = none ∧
      encodeRM is64 pfx opc ri re m = none) ∧
    (m.mode = .indirectDisp → m.base.need_sib = true →
      encodeM is64 pfx opc ext m = none ∧
      encodeMI is64 pfx opc ext m imm = none ∧
      encodeMR is64 pfx opc m ri re = none ∧
      encodeRM is64 pfx opc ri re m = none) ∧
    (m.mode = .indirectBaseIndex →
      (m.index = Reg64.rsp ∨ m.base.is_pc_rel = true) →
      encodeM is64 pfx opc ext m = none ∧
      encodeMI is64 pfx opc ext m imm = none ∧
      encodeMR is64 pfx opc m ri re = none ∧
      encodeRM is64 pfx opc ri re m = none) := by
  refine ⟨fun hm hv => ?_, fun hm hv => ?_, fun hm hv => ?_⟩
  · have h := encModRM_none_of_violation m (Or.inl ⟨hm, hv⟩)
    exact ⟨by simp [encodeM, h], by simp [encodeMI, h],
      by simp [encodeMR, h], by simp [encodeRM, encodeMR, h]⟩
  · have h := encModRM_none_of_violation m (Or.inr (Or.inl ⟨hm, hv⟩))
    exact ⟨by simp [encodeM, h], by simp [encodeMI, h],
      by simp [encodeMR, h], by simp [encodeRM, encodeMR, h]⟩
  · have h := encModRM_none_of_violation m (Or.inr (Or.inr ⟨hm, hv⟩))
    exact ⟨by simp [encodeM, h], by simp [encodeMI, h],
      by simp [encodeMR, h], by simp [encodeRM, encodeMR, h]⟩

/-- C7 witness: `[rsp]` (indirect, SIB base), `[r12 + 4]` (disp, SIB
base) and `[rax + rsp]` (RSP as index) are all rejected in all four
forms. -/
theorem encode_mem_guards_witness :
    (encodeM false none 0xfe 0 (memIndirect Reg64.rsp) = none ∧
      encodeMI false none 0x83 5 (memIndirect Reg64.rsp) [1] = none ∧
      encodeMR false none 0x88 (memIndirect Reg64.rsp) 1 false = none ∧
      encodeRM false none 0x8a 1 false (memIndirect Reg64.rsp) = none) ∧
    (encodeM false none 0xfe 0 (memIndirectDisp Reg64.r12 4) = none ∧
      encodeMI false none 0x83 5 (memIndirectDisp Reg64.r12 4) [1] = none ∧
      encodeMR false none 0x88 (memIndirectDisp Reg64.r12 4) 1 false = none ∧
      encodeRM false none 0x8a 1 false (memIndirectDisp Reg64.r12 4) = none) ∧
    (encodeM false none 0xfe 0 (memIndirectBaseIndex Reg64.rax Reg64.rsp) = none ∧
      encodeMI false none 0x83 5 (memIndirectBaseIndex Reg64.rax Reg64.rsp) [1] = none ∧
      encodeMR false none 0x88 (memIndirectBaseIndex Reg64.rax Reg64.rsp) 1 false = none ∧
      encodeRM false none 0x8a 1 false (memIndirectBaseIndex Reg64.rax Reg64.rsp) = none) :=
  ⟨⟨(by
        exact ((encode_mem_guards false none 0xfe 0 1 (memIndirect Reg64.rsp)
          [1] false).1 rfl (Or.inl (by decide))).1), (by
        exact ((encode_mem_guards false none 0x83 5 1 (memIndirect Reg64.rsp)
          [1] false).1 rfl (Or.inl (by decide))).2.1), (by
        exact ((encode_mem_guards false none 0x88 0 1 (memIndirect Reg64.rsp)
          [1] false).1 rfl (Or.inl (by decide))).2.2.1), (by
        exact ((encode_mem_guards false none 0x8a 0 1 (memIndirect Reg64.rsp)
          [1] false).1 rfl (Or.inl (by decide))).2.2.2)⟩,
    ⟨(by
        exact ((encode_mem_guards false none 0xfe 0 1 (memIndirectDisp Reg64.r12 4)
          [1] false).2.1 rfl (by decide)).1), (by
        exact ((encode_mem_guards false none 0x83 5 1 (memIndirectDisp Reg64.r12 4)
          [1] false).2.1 rfl (by decide)).2.1), (by
        exact ((encode_mem_guards false none 0x88 0 1 (memIndirectDisp Reg64.r12 4)
          [1] false).2.1 rfl (by decide)).2.2.1), (by
        exact ((encode_mem_guards false none 0x8a 0 1 (memIndirectDisp Reg64.r12 4)
          [1] false).2.1 rfl (by decide)).2.2.2)⟩,
    ⟨(by
        exact ((encode_mem_guards false none 0xfe 0 1
          (memIndirectBaseIndex Reg64.rax Reg64.rsp) [1] false).2.2 rfl
          (Or.inl rfl)).1), (by
        exact ((encode_mem_guards false none 0x83 5 1
          (memIndirectBaseIndex Reg64.rax Reg64.rsp) [1] false).2.2 rfl
          (Or.inl rfl)).2.1), (by
        exact ((encode_mem_guards false none 0x88 0 1
          (memIndirectBaseIndex Reg64.rax Reg64.rsp) [1] false).2.2 rfl
          (Or.inl rfl)).2.2.1), (by
        exact ((encode_mem_guards false none 0x8a 0 1
          (memIndirectBaseIndex Reg64.rax Reg64.rsp) [1] false).2.2 rfl
          (Or.inl rfl)).2.2.2)⟩⟩

/-- C8: `mov byte [rdx], dil` through `Asm::encode_mr` of src/asm.rs emits
`88 3A` with no REX byte -- `EncodeMR::rex` only tests `is_ext`, dropping
the `need_rex` requirement of DIL -- while the older revision in
src/lib.rs emits REX `0x40` for the same operands (as the claim and the
x86-64 ISA require; without REX, `88 3A` encodes `mov [rdx], bh`). -/
theorem mov_mem8_dil_missing_rex :
    movMem8Reg8 (memIndirect Reg64.rdx) Reg8.dil = some [0x88, 0x3a] ∧
    0x40 ∉ [0x88, 0x3a] ∧
    Reg8.dil.need_rex = true ∧
    encodeMR_rex_old Reg8.dil Reg64.rdx = some 0x40 := by
  decide

/-- C9: displacement and immediate bytes are produced with `to_ne_bytes`
(src/imm.rs, src/asm.rs), i.e. in host byte order: emitting
`mov edi, Imm32::from(0xaabb)` on a little-endian host yields
`BF BB AA 00 00` but on a big-endian host `BF 00 00 AA BB`, so the
output buffer is not platform independent. -/
theorem mov_edi_imm32_byte_order_dependent :
    movEdiImm32 .le 0xaabb = [0xbf, 0xbb, 0xaa, 0, 0] ∧
    movEdiImm32 .be 0xaabb = [0xbf, 0, 0, 0xaa, 0xbb] ∧
    movEdiImm32 .be 0xaabb ≠ movEdiImm32 .le 0xaabb := by
  decide

/-! ### Buffer algebra -/

theorem leBytes_length (n v : Nat) : (leBytes n v).length = n := by
  induction n generalizing v with
  | zero => rfl
  | succ n ih => simp [leBytes, ih]

theorem dispBytes_length (loc off : Nat) : (dispBytes loc off).length = 4 := by
  simp [dispBytes, intBytesLE, leBytes_length]

theorem writeAt_length (buf bs : List Nat) (pos : Nat)
    (h : pos + bs.length ≤ buf.length) :
    (writeAt buf pos bs).length = buf.length := by
  simp only [writeAt, List.length_append, List.length_take, List.length_drop]
  omega

theorem slice_writeAt_self (buf bs : List Nat) (pos : Nat)
    (h : pos + bs.length ≤ buf.length) :
    slice (writeAt buf pos bs) pos bs.length = bs := by
  have hp : (buf.take pos).length = pos := by
    rw [List.length_take]; omega
  unfold slice writeAt
  rw [List.append_assoc, List.drop_left' hp]
  exact List.take_left bs _

theorem slice_writeAt_before (buf bs : List Nat) (pos P n : Nat)
    (hb : pos + bs.length ≤ buf.length) (hle : pos + bs.length ≤ P) :
    slice (writeAt buf pos bs) P n = slice buf P n := by
  have hp : (buf.take pos).length = pos := by
    rw [List.length_take]; omega
  have hA : (buf.take pos ++ bs).length = pos + bs.length := by
    rw [List.length_append, hp]
  unfold slice writeAt
  rw [List.drop_append_eq_append_drop,
    List.drop_eq_nil_of_le (by rw [hA]; omega), List.nil_append, hA,
    List.drop_drop]
  congr 2
  omega

theorem slice_writeAt_after (buf bs : List Nat) (pos P n : Nat)
    (hb : pos + bs.length ≤ buf.length) (hle : P + n ≤ pos) :
    slice (writeAt buf pos bs) P n = slice buf P n := by
  have hp : (buf.take pos).length = pos := by
    rw [List.length_take]; omega
  unfold slice writeAt
  rw [List.append_assoc, List.drop_append_eq_append_drop,
    show P - (buf.take pos).length = 0 by rw [hp]; omega, List.drop_zero,
    List.take_append_eq_append_take,
    show n - ((buf.take pos).drop P).length = 0 by
      rw [List.length_drop, hp]; omega,
    List.take_zero, List.append_nil, List.drop_take, List.take_take,
    show min n (pos - P) = n by omega]

/-! ### Patch-loop lemmas -/

theorem patchAll_not_oob (loc : Nat) (offs : List Nat) :
    ∀ buf : List Nat, (∀ o ∈ offs, o + 4 ≤ buf.length) →
      patchAll loc offs buf ≠ .oob ∧
      ∀ buf2, patchAll loc offs buf = .ok buf2 → buf2.length = buf.length := by
  induction offs with
  | nil =>
      intro buf _
      refine ⟨by simp [patchAll], fun buf2 hb => ?_⟩
      simp [patchAll] at hb
      rw [hb]
  | cons off rest ih =>
      intro buf h
      by_cases hoff : off < i32Max
      · have hin : off + (dispBytes loc off).length ≤ buf.length := by
          rw [dispBytes_length]; exact h off (by simp)
        have hemit : emitAt buf off (dispBytes loc off) =
            .ok (writeAt buf off (dispBytes loc off)) := by
          simp [emitAt, hin]
        have hL : (writeAt buf off (dispBytes loc off)).length = buf.length :=
          writeAt_length _ _ _ hin
        have ih2 := ih (writeAt buf off (dispBytes loc off))
          (by intro o ho; rw [hL]; exact h o (by simp [ho]))
        refine ⟨?_, fun buf2 hb => ?_⟩
        · simpa [patchAll, hoff, hemit] using ih2.1
        · simp only [patchAll, if_pos hoff, hemit] at hb
          rw [ih2.2 buf2 hb, hL]
      · refine ⟨by simp [patchAll, hoff], fun buf2 hb => ?_⟩
        simp [patchAll, hoff] at hb

theorem patchAll_ok (loc : Nat) (offs : List Nat) :
    ∀ buf : List Nat, (∀ o ∈ offs, o + 4 ≤ buf.length) →
      (∀ o ∈ offs, o < i32Max) →
      ∃ buf2, patchAll loc offs buf = .ok buf2 ∧ buf2.length = buf.length := by
  induction offs with
  | nil => intro buf _ _; exact ⟨buf, by simp [patchAll], rfl⟩
  | cons off rest ih =>
      intro buf h h31
      have hoff : off < i32Max := h31 off (by simp)
      have hin : off + (dispBytes loc off).length ≤ buf.length := by
        rw [dispBytes_length]; exact h off (by simp)
      have hemit : emitAt buf off (dispBytes loc off) =
          .ok (writeAt buf off (dispBytes loc off)) := by
        simp [emitAt, hin]
      have hL : (writeAt buf off (dispBytes loc off)).length = buf.length :=
        writeAt_length _ _ _ hin
      obtain ⟨buf2, hb, hbL⟩ := ih (writeAt buf off (dispBytes loc off))
        (by intro o ho; rw [hL]; exact h o (by simp [ho]))
        (by intro o ho; exact h31 o (by simp [ho]))
      exact ⟨buf2, by simp [patchAll, hoff, hemit, hb], by rw [hbL, hL]⟩

theorem patchAll_slice_untouched (loc : Nat) (offs : List Nat) (P n : Nat) :
    ∀ buf : List Nat, (∀ o ∈ offs, o + 4 ≤ buf.length) →
      (∀ o ∈ offs, P + n ≤ o) →
      ∀ buf2, patchAll loc offs buf = .ok buf2 → slice buf2 P n = slice buf P n := by
  induction offs with
  | nil =>
      intro buf _ _ buf2 hb
      simp [patchAll] at hb
      rw [hb]
  | cons off rest ih =>
      intro buf h hdis buf2 hb
      by_cases hoff : off < i32Max
      · have hin : off + (dispBytes loc off).length ≤ buf.length := by
          rw [dispBytes_length]; exact h off (by simp)
        have hemit : emitAt buf off (dispBytes loc off) =
            .ok (writeAt buf off (dispBytes loc off)) := by
          simp [emitAt, hin]
        have hL : (writeAt buf off (dispBytes loc off)).length = buf.length :=
          writeAt_length _ _ _ hin
        simp only [patchAll, if_pos hoff, hemit] at hb
        rw [ih (writeAt buf off (dispBytes loc off))
          (by intro o ho; rw [hL]; exact h o (by simp [ho]))
          (by intro o ho; exact hdis o (by simp [ho])) buf2 hb]
        exact slice_writeAt_after buf _ off P n hin (hdis off (by simp))
      · simp [patchAll, hoff] at hb

theorem patchAll_slice (loc : Nat) (offs : List Nat) (P : Nat) :
    ∀ buf : List Nat,
      List.Pairwise (fun a b => a + 4 ≤ b) offs →
      (∀ o ∈ offs, o + 4 ≤ buf.length) →
      P ∈ offs →
      ∀ buf2, patchAll loc offs buf = .ok buf2 →
        slice buf2 P 4 = dispBytes loc P := by
  induction offs with
  | nil => intro buf _ _ hP; cases hP
  | cons off rest ih =>
      intro buf hpw h hP buf2 hb
      rw [List.pairwise_cons] at hpw
      by_cases hoff : off < i32Max
      · have hin : off + (dispBytes loc off).length ≤ buf.length := by
          rw [dispBytes_length]; exact h off (by simp)
        have hemit : emitAt buf off (dispBytes loc off) =
            .ok (writeAt buf off (dispBytes loc off)) := by
          simp [emitAt, hin]
        have hL : (writeAt buf off (dispBytes loc off)).length = buf.length :=
          writeAt_length _ _ _ hin
        simp only [patchAll, if_pos hoff, hemit] at hb
        rcases List.mem_cons.mp hP with rfl | hPrest
        · rw [patchAll_slice_untouched loc rest P 4
            (writeAt buf P (dispBytes loc P))
            (by intro o ho; rw [hL]; exact h o (by simp [ho]))
            (by intro o ho; exact hpw.1 o ho) buf2 hb]
          have := slice_writeAt_self buf (dispBytes loc P) P hin
          rwa [dispBytes_length] at this
        · exact ih (writeAt buf off (dispBytes loc off)) hpw.2
            (by intro o ho; rw [hL]; exact h o (by simp [ho])) hPrest buf2 hb
      · simp [patchAll, hoff] at hb

/-! ### Resolve and invariant lemmas -/

theorem resolveL_unbound (buf : List Nat) (lab : LabelSt)
    (h : lab.location = none) : resolveL buf lab = .ok buf lab := by
  simp [resolveL, h]

theorem resolveL_bound_ok (buf buf2 : List Nat) (loc : Nat) (offs : List Nat)
    (h31 : loc < i32Max) (hpa : patchAll loc offs buf = .ok buf2) :
    resolveL buf ⟨some loc, offs⟩ = .ok buf2 ⟨some loc, []⟩ := by
  simp [resolveL, h31, hpa]

theorem resolveL_not_oob (buf : List Nat) (lab : LabelSt)
    (h : ∀ o ∈ lab.offsets, o + 4 ≤ buf.length) :
    resolveL buf lab ≠ .oob ∧
    ∀ buf2 lab2, resolveL buf lab = .ok buf2 lab2 →
      buf2.length = buf.length ∧ (lab2 = lab ∨ lab2.offsets = []) := by
  cases hloc : lab.location with
  | none =>
      refine ⟨by simp [resolveL, hloc], fun buf2 lab2 hb => ?_⟩
      simp only [resolveL, hloc] at hb
      cases hb
      exact ⟨rfl, Or.inl rfl⟩
  | some loc =>
      by_cases h31 : loc < i32Max
      · have hpa := patchAll_not_oob loc lab.offsets buf h
        cases hpab : patchAll loc lab.offsets buf with
        | ok bufp =>
            refine ⟨by simp [resolveL, hloc, h31, hpab], fun b2 l2 hb => ?_⟩
            simp only [resolveL, hloc, h31, if_pos, hpab] at hb
            cases hb
            exact ⟨hpa.2 bufp hpab, Or.inr rfl⟩
        | panic =>
            refine ⟨by simp [resolveL, hloc, h31, hpab], fun b2 l2 hb => ?_⟩
            simp [resolveL, hloc, h31, hpab] at hb
        | oob => exact absurd hpab hpa.1
      · refine ⟨by simp [resolveL, hloc, h31], fun b2 l2 hb => ?_⟩
        simp [resolveL, hloc, h31] at hb

theorem offsOK_nil (len : Nat) : OffsOK len [] :=
  ⟨List.Pairwise.nil, by simp⟩

theorem offsOK_mono (len len2 : Nat) (offs : List Nat)
    (h : OffsOK len offs) (hle : len ≤ len2) : OffsOK len2 offs :=
  ⟨h.1, fun o ho => le_trans (h.2 o ho) hle⟩

theorem offsOK_record (len off : Nat) (offs : List Nat)
    (h : OffsOK len offs) (hoff : len ≤ off) :
    OffsOK (off + 4) (if off ∈ offs then offs else offs ++ [off]) := by
  by_cases hm : off ∈ offs
  · rw [if_pos hm]
    exact offsOK_mono _ _ _ h (by omega)
  · rw [if_neg hm]
    constructor
    · rw [List.pairwise_append]
      refine ⟨h.1, List.pairwise_singleton _ _, fun a ha b hb => ?_⟩
      simp at hb
      subst hb
      have := h.2 a ha
      omega
    · intro o ho
      rcases List.mem_append.mp ho with ho | ho
      · have := h.2 o ho; omega
      · simp at ho; omega

theorem getElem?_set_cases {α : Type} (xs : List α) (i j : Nat) (a b : α)
    (h : (xs.set i a)[j]? = some b) : b = a ∨ xs[j]? = some b := by
  rcases eq_or_ne i j with rfl | hne
  · rcases Nat.lt_or_ge i xs.length with hl | hl
    · left
      rw [List.getElem?_set_self] at h
      · exact (Option.some_inj.mp h).symm
      · exact hl
    · right
      rw [List.set_eq_of_length_le (by omega)] at h
      exact h
  · right
    rwa [List.getElem?_set_ne hne] at h

theorem getElem?_replicate_eq {α : Type} {x b : α} {n i : Nat}
    (h : (List.replicate n x)[i]? = some b) : b = x := by
  rw [List.getElem?_replicate] at h
  split at h
  · exact (Option.some_inj.mp h).symm
  · cases h

/-! ### Step lemmas: the invariant is preserved and `oob` is unreachable -/

theorem bindStep_inv (st : AsmSt) (l : Nat) (hInv : Inv st) :
    bindStep st l ≠ .oob ∧ ∀ st2, bindStep st l = .ok st2 → Inv st2 := by
  cases hget : st.labels[l]? with
  | none => exact ⟨by simp [bindStep, hget], fun st2 hs => by simp [bindStep, hget] at hs⟩
  | some lab =>
      cases hlb : labelBind lab st.buf.length with
      | none =>
          exact ⟨by simp [bindStep, hget, hlb],
            fun st2 hs => by simp [bindStep, hget, hlb] at hs⟩
      | some lab1 =>
          have hoffs1 : lab1.offsets = lab.offsets := by
            unfold labelBind at hlb
            cases hl : lab.location with
            | none => rw [hl] at hlb; cases hlb; rfl
            | some v => rw [hl] at hlb; cases hlb
          have hbound : ∀ o ∈ lab1.offsets, o + 4 ≤ st.buf.length := by
            rw [hoffs1]
            exact (hInv l lab hget).2
          have hres := resolveL_not_oob st.buf lab1 hbound
          cases hr : resolveL st.buf lab1 with
          | ok buf2 lab2 =>
              refine ⟨by simp [bindStep, hget, hlb, hr], fun st2 hs => ?_⟩
              simp only [bindStep, hget, hlb, hr] at hs
              cases hs
              intro i lab' hget'
              have hlen : buf2.length = st.buf.length := (hres.2 buf2 lab2 hr).1
              show OffsOK buf2.length lab'.offsets
              rw [hlen]
              rcases getElem?_set_cases st.labels l i lab2 lab' hget' with heq | hold
              · rw [heq]
                rcases (hres.2 buf2 lab2 hr).2 with heq2 | hempty
                · rw [heq2, hoffs1]
                  exact hInv l lab hget
                · rw [hempty]
                  exact offsOK_nil _
              · exact hInv i lab' hold
          | panic =>
              exact ⟨by simp [bindStep, hget, hlb, hr],
                fun st2 hs => by simp [bindStep, hget, hlb, hr] at hs⟩
          | oob => exact absurd hr hres.1

theorem jmpStep_eq (st : AsmSt) (opc : List Nat) (l : Nat) (lab : LabelSt)
    (hget : st.labels[l]? = some lab) :
    jmpStep st opc l =
      match resolveL (st.buf ++ opc ++ [0, 0, 0, 0])
          (recordOffset lab (st.buf ++ opc).length) with
      | .ok buf3 lab2 => .ok ⟨buf3, st.labels.set l lab2⟩
      | .panic => .panic
      | .oob => .oob := by
  simp [jmpStep, hget]

theorem jmpStep_inv (st : AsmSt) (opc : List Nat) (l : Nat) (hInv : Inv st) :
    jmpStep st opc l ≠ .oob ∧ ∀ st2, jmpStep st opc l = .ok st2 → Inv st2 := by
  cases hget : st.labels[l]? with
  | none =>
      exact ⟨by simp [jmpStep, hget], fun st2 hs => by simp [jmpStep, hget] at hs⟩
  | some lab =>
      have hOK := hInv l lab hget
      have hoffeq : (st.buf ++ opc).length = st.buf.length + opc.length :=
        List.length_append _ _
      have hOK1 : OffsOK ((st.buf ++ opc).length + 4)
          (recordOffset lab (st.buf ++ opc).length).offsets := by
        unfold recordOffset
        exact offsOK_record st.buf.length _ lab.offsets hOK (by omega)
      have hlen2 : (st.buf ++ opc ++ [0, 0, 0, 0]).length =
          (st.buf ++ opc).length + 4 := by
        simp only [List.length_append, List.length_cons, List.length_nil]
      have hbound : ∀ o ∈ (recordOffset lab (st.buf ++ opc).length).offsets,
          o + 4 ≤ (st.buf ++ opc ++ [0, 0, 0, 0]).length := by
        rw [hlen2]
        exact hOK1.2
      have hres := resolveL_not_oob _ _ hbound
      rw [jmpStep_eq st opc l lab hget]
      cases hr : resolveL (st.buf ++ opc ++ [0, 0, 0, 0])
          (recordOffset lab (st.buf ++ opc).length) with
      | ok buf3 lab2 =>
          refine ⟨by simp, fun st2 hs => ?_⟩
          have hs2 : SRes.ok (⟨buf3, st.labels.set l lab2⟩ : AsmSt) = SRes.ok st2 := hs
          cases hs2
          intro i lab' hget'
          have hlen3 : buf3.length = (st.buf ++ opc).length + 4 := by
            rw [(hres.2 buf3 lab2 hr).1, hlen2]
          show OffsOK buf3.length lab'.offsets
          rw [hlen3]
          rcases getElem?_set_cases st.labels l i lab2 lab' hget' with heq | hold
          · rw [heq]
            rcases (hres.2 buf3 lab2 hr).2 with heq2 | hempty
            · rw [heq2]
              exact hOK1
            · rw [hempty]
              exact offsOK_nil _
          · exact offsOK_mono _ _ _ (hInv i lab' hold) (by omega)
      | panic => exact ⟨by simp, fun st2 hs => by simp at hs⟩
      | oob =>
          rw [hr] at hres
          exact absurd rfl hres.1

theorem stepCmd_inv (st : AsmSt) (c : Cmd) (hInv : Inv st) :
    stepCmd st c ≠ .oob ∧ ∀ st2, stepCmd st c = .ok st2 → Inv st2 := by
  cases c with
  | emitBytes bs =>
      refine ⟨by simp [stepCmd, emitStep], fun st2 hs => ?_⟩
      simp only [stepCmd, emitStep] at hs
      cases hs
      intro i lab' hget'
      refine offsOK_mono _ _ _ (hInv i lab' hget') ?_
      simp
  | jmp opc l => exact jmpStep_inv st opc l hInv
  | bind l => exact bindStep_inv st l hInv

theorem runCmds_no_oob (cs : List Cmd) :
    ∀ st : AsmSt, Inv st → runCmds st cs ≠ .oob := by
  induction cs with
  | nil => intro st _; simp [runCmds]
  | cons c rest ih =>
      intro st hInv
      have hstep := stepCmd_inv st c hInv
      cases hs : stepCmd st c with
      | ok st2 => simpa [runCmds, hs] using ih st2 (hstep.2 st2 hs)
      | panic => simp [runCmds, hs]
      | oob => exact absurd hs hstep.1

theorem initSt_inv (n : Nat) : Inv (initSt n) := by
  intro i lab hget
  have : lab = labelNew := getElem?_replicate_eq hget
  rw [this]
  exact offsOK_nil _

/-- C10: in any program over the public surface (append-only emissions,
jump-to-label emissions and binds) starting from a fresh assembler, every
offset in a label's fix-up set has its four placeholder bytes inside the
buffer, so the `unimplemented!()` out-of-bounds branch of `Asm::emit_at`
is never reached. -/
theorem emit_at_oob_unreachable (n : Nat) (cs : List Cmd) :
    runCmds (initSt n) cs ≠ SRes.oob :=
  runCmds_no_oob cs (initSt n) (initSt_inv n)

/-- C1: patched displacements.  (a) Binding a label at the current buffer
length `T` patches every recorded offset `P` with the little-endian bytes
of `T - P - 4`, leaving the buffer length unchanged; (b) a jump emitted
against an already-bound label (bound at `T`) appends the opcode and then
the little-endian bytes of `T - P - 4`, `P` being the placeholder offset;
(c) `bind; jmp` on a fresh assembler yields `E9 FB FF FF FF`; (d)
`jmp; bind` yields `E9 00 00 00 00`. -/
theorem label_disp32_correct :
    (∀ (st : AsmSt) (l : Nat) (lab : LabelSt) (P : Nat),
      st.labels[l]? = some lab →
      lab.location = none →
      OffsOK st.buf.length lab.offsets →
      P ∈ lab.offsets →
      st.buf.length < i32Max →
      ∃ st2, bindStep st l = .ok st2 ∧
        st2.buf.length = st.buf.length ∧
        slice st2.buf P 4 = dispBytes st.buf.length P) ∧
    (∀ (st : AsmSt) (opc : List Nat) (l : Nat) (lab : LabelSt) (T : Nat),
      st.labels[l]? = some lab →
      lab.location = some T →
      lab.offsets = [] →
      T < i32Max →
      (st.buf ++ opc).length < i32Max →
      ∃ st2, jmpStep st opc l = .ok st2 ∧
        st2.buf = (st.buf ++ opc) ++ dispBytes T (st.buf ++ opc).length) ∧
    runCmds (initSt 1) [.bind 0, .jmp [0xe9] 0] =
      .ok ⟨[0xe9, 0xfb, 0xff, 0xff, 0xff], [⟨some 0, []⟩]⟩ ∧
    runCmds (initSt 1) [.jmp [0xe9] 0, .bind 0] =
      .ok ⟨[0xe9, 0, 0, 0, 0], [⟨some 5, []⟩]⟩ := by
  refine ⟨?_, ?_, by decide, by decide⟩
  · intro st l lab P hget hloc hOK hP h31
    have hlb : labelBind lab st.buf.length =
        some ⟨some st.buf.length, lab.offsets⟩ := by
      simp [labelBind, hloc]
    have h31off : ∀ o ∈ lab.offsets, o < i32Max := by
      intro o ho
      have := hOK.2 o ho
      omega
    obtain ⟨buf2, hpa, hlen⟩ :=
      patchAll_ok st.buf.length lab.offsets st.buf hOK.2 h31off
    have hres : resolveL st.buf ⟨some st.buf.length, lab.offsets⟩ =
        .ok buf2 ⟨some st.buf.length, []⟩ :=
      resolveL_bound_ok st.buf buf2 st.buf.length lab.offsets h31 hpa
    refine ⟨⟨buf2, st.labels.set l ⟨some st.buf.length, []⟩⟩, ?_, ?_, ?_⟩
    · simp [bindStep, hget, hlb, hres]
    · exact hlen
    · exact patchAll_slice st.buf.length lab.offsets P st.buf hOK.1 hOK.2 hP
        buf2 hpa
  · intro st opc l lab T hget hloc hoffs h31T h31P
    have hrec : recordOffset lab (st.buf ++ opc).length =
        ⟨some T, [(st.buf ++ opc).length]⟩ := by
      unfold recordOffset
      rw [hloc, hoffs]
      simp
    have hlenb : ((st.buf ++ opc) ++ [0, 0, 0, 0]).length =
        (st.buf ++ opc).length + 4 := by
      simp only [List.length_append, List.length_cons, List.length_nil]
    have hemit : emitAt ((st.buf ++ opc) ++ [0, 0, 0, 0]) (st.buf ++ opc).length
        (dispBytes T (st.buf ++ opc).length) =
        .ok (writeAt ((st.buf ++ opc) ++ [0, 0, 0, 0]) (st.buf ++ opc).length
          (dispBytes T (st.buf ++ opc).length)) := by
      simp only [emitAt, dispBytes_length, List.length_append,
        List.length_cons, List.length_nil, if_pos]
      rw [if_pos (by omega)]
    have hwr : writeAt ((st.buf ++ opc) ++ [0, 0, 0, 0]) (st.buf ++ opc).length
        (dispBytes T (st.buf ++ opc).length) =
        (st.buf ++ opc) ++ dispBytes T (st.buf ++ opc).length := by
      unfold writeAt
      rw [dispBytes_length, List.take_left,
        List.drop_eq_nil_of_le (by rw [hlenb]), List.append_nil]
    have hpa : patchAll T [(st.buf ++ opc).length]
        ((st.buf ++ opc) ++ [0, 0, 0, 0]) =
        .ok ((st.buf ++ opc) ++ dispBytes T (st.buf ++ opc).length) := by
      simp only [patchAll, if_pos h31P, hemit, hwr]
    have hres : resolveL ((st.buf ++ opc) ++ [0, 0, 0, 0])
        ⟨some T, [(st.buf ++ opc).length]⟩ =
        .ok ((st.buf ++ opc) ++ dispBytes T (st.buf ++ opc).length)
          ⟨some T, []⟩ :=
      resolveL_bound_ok _ _ T _ h31T hpa
    rw [jmpStep_eq st opc l lab hget, hrec, hres]
    exact ⟨⟨(st.buf ++ opc) ++ dispBytes T (st.buf ++ opc).length,
      st.labels.set l ⟨some T, []⟩⟩, rfl, rfl⟩

/-- C1 witness: binding the label of a pending `jmp` (placeholder at
offset 1, buffer length 5) patches bytes 1..4 with `disp32 = 5 - 1 - 4`. -/
theorem label_disp32_correct_witness :
    ∃ st2, bindStep ⟨[0xe9, 0, 0, 0, 0], [⟨none, [1]⟩]⟩ 0 = .ok st2 ∧
      st2.buf.length = 5 ∧
      slice st2.buf 1 4 = dispBytes 5 1 :=
  label_disp32_correct.1 ⟨[0xe9, 0, 0, 0, 0], [⟨none, [1]⟩]⟩ 0 ⟨none, [1]⟩ 1
    rfl rfl ⟨List.pairwise_singleton _ _, by decide⟩ (by decide) (by decide)

/-- C4: label lifetime misuse aborts: binding an already-bound label
panics (`Label::bind`'s `assert!`), and dropping a label that is unbound
or still has unresolved offsets fails the `assert!`s of
`impl Drop for Label`. -/
theorem label_lifetime_guards (lab : LabelSt) (loc : Nat) :
    (lab.location.isSome = true → labelBind lab loc = none) ∧
    (lab.location = none → labelDropChk lab = false) ∧
    (lab.offsets ≠ [] → labelDropChk lab = false) := by
  refine ⟨fun h => ?_, fun h => ?_, fun h => ?_⟩
  · cases hl : lab.location with
    | none => rw [hl] at h; cases h
    | some v => simp [labelBind, hl]
  · simp [labelDropChk, h]
  · cases ho : lab.offsets with
    | nil => exact absurd ho h
    | cons a t => simp [labelDropChk, ho]

/-- C4 witness: a bound label cannot be re-bound; an unbound label and a
label with a pending offset fail the drop check. -/
theorem label_lifetime_guards_witness :
    labelBind ⟨some 3, []⟩ 7 = none ∧
    labelDropChk ⟨none, []⟩ = false ∧
    labelDropChk ⟨some 3, [9]⟩ = false :=
  ⟨(label_lifetime_guards ⟨some 3, []⟩ 7).1 rfl,
   (label_lifetime_guards ⟨none, []⟩ 7).2.1 rfl,
   (label_lifetime_guards ⟨some 3, [9]⟩ 7).2.2 (by decide)⟩

/-- C5: `Runtime::add_code` capacity behaviour on the 4096-byte page.
An input of length exactly `4096 - idx` (with room left) succeeds,
returns the old cursor as the function start and advances the cursor by
the input length (to 4096); an input one byte longer panics; an empty
input panics.  The asserts precede the copy, so `none` carries no
mutated state. -/
theorem add_code_capacity (rt : Runtime) (code : List Nat)
    (hlen : rt.len = 4096) :
    (rt.idx < 4096 → code.length = 4096 - rt.idx →
      ∃ rt2, addCode rt code = some (rt2, rt.idx) ∧
        rt2.idx = rt.idx + code.length ∧ rt2.idx = 4096 ∧
        rt2.mem = writeAt rt.mem rt.idx code) ∧
    (code.length = 4096 - rt.idx + 1 → addCode rt code = none) ∧
    (code = [] → addCode rt code = none) := by
  obtain ⟨len, idx, mem, prot⟩ := rt
  simp only at hlen
  subst hlen
  dsimp only
  refine ⟨fun hidx hexact => ?_, fun hover => ?_, fun hempty => ?_⟩
  · have hne : code ≠ [] := by
      intro hc
      rw [hc] at hexact
      simp at hexact
      omega
    refine ⟨⟨4096, idx + code.length, writeAt mem idx code, protRX⟩, ?_, rfl,
      by dsimp only; omega, rfl⟩
    simp only [addCode]
    rw [if_pos hidx, if_neg hne, if_pos (by omega)]
  · by_cases hidx : idx < 4096
    · have hne : code ≠ [] := by
        intro hc
        rw [hc] at hover
        simp at hover
      simp only [addCode]
      rw [if_pos hidx, if_neg hne, if_neg (by omega)]
    · simp only [addCode]
      rw [if_neg hidx]
  · simp [addCode, hempty]

/-- C5 witness: with cursor at 4000 of 4096, adding exactly 96 bytes
succeeds and fills the page; 97 bytes and the empty input panic. -/
theorem add_code_capacity_witness :
    (∃ rt2, addCode ⟨4096, 4000, List.replicate 4096 0, protRX⟩
        (List.replicate 96 7) = some (rt2, 4000) ∧
      rt2.idx = 4000 + (List.replicate 96 7).length ∧ rt2.idx = 4096 ∧
      rt2.mem = writeAt (List.replicate 4096 0) 4000 (List.replicate 96 7)) ∧
    addCode ⟨4096, 4000, List.replicate 4096 0, protRX⟩
      (List.replicate 97 7) = none ∧
    addCode ⟨4096, 4000, List.replicate 4096 0, protRX⟩ [] = none :=
  ⟨(add_code_capacity ⟨4096, 4000, List.replicate 4096 0, protRX⟩
      (List.replicate 96 7) rfl).1 (by decide) (by simp),
   (add_code_capacity ⟨4096, 4000, List.replicate 4096 0, protRX⟩
      (List.replicate 97 7) rfl).2.1 (by simp),
   (add_code_capacity ⟨4096, 4000, List.replicate 4096 0, protRX⟩
      [] rfl).2.2 rfl⟩

/-- C6: the W^X discipline of the runtime.  A fresh runtime maps the page
`PROT_NONE`; in every reachable steady state (between `add_code` calls)
the protection is `PROT_NONE` or `PROT_READ|PROT_EXEC` and never
writable-and-executable; within one `add_code` call the page protections
are either untouched (panic before the first `mprotect`) or exactly
`PROT_WRITE` (writable, not executable) immediately followed by
`PROT_READ|PROT_EXEC`, and every successful call returns with the page at
`PROT_READ|PROT_EXEC`. -/
theorem runtime_wx_invariant :
    runtimeNew.prot = protNone ∧
    (∀ codes : List (List Nat),
      (runRuntime codes).prot = protNone ∨ (runRuntime codes).prot = protRX) ∧
    (∀ codes : List (List Nat),
      ((runRuntime codes).prot.w && (runRuntime codes).prot.x) = false) ∧
    (∀ (rt : Runtime) (code : List Nat),
      addCodeTrace rt code = [] ∨ addCodeTrace rt code = [protWrite, protRX]) ∧
    (∀ (rt : Runtime) (code : List Nat),
      (addCodeTrace rt code).all (fun p => !(p.w && p.x)) = true) ∧
    (∀ (rt : Runtime) (code : List Nat),
      (addCode rt code).elim True (fun r => r.1.prot = protRX)) := by
  have hprot : ∀ (rt : Runtime) (code : List Nat) (r : Runtime × Nat),
      addCode rt code = some r → r.1.prot = protRX := by
    intro rt code r h
    unfold addCode at h
    split at h
    · split at h
      · cases h
      · split at h
        · cases h; rfl
        · cases h
    · cases h
  have hstep : ∀ (rt : Runtime) (code : List Nat),
      (addCodeStep rt code).prot = rt.prot ∨
      (addCodeStep rt code).prot = protRX := by
    intro rt code
    unfold addCodeStep
    cases h : addCode rt code with
    | none => exact Or.inl rfl
    | some r => exact Or.inr (hprot rt code r h)
  have htrace : ∀ (rt : Runtime) (code : List Nat),
      addCodeTrace rt code = [] ∨
      addCodeTrace rt code = [protWrite, protRX] := by
    intro rt code
    unfold addCodeTrace
    split <;> [skip; exact Or.inl rfl]
    split <;> [exact Or.inl rfl; skip]
    split <;> [exact Or.inr rfl; exact Or.inl rfl]
  have hfold : ∀ (codes : List (List Nat)) (rt : Runtime),
      rt.prot = protNone ∨ rt.prot = protRX →
      ((codes.foldl addCodeStep rt).prot = protNone ∨
       (codes.foldl addCodeStep rt).prot = protRX) := by
    intro codes
    induction codes with
    | nil => intro rt h; exact h
    | cons c rest ih =>
        intro rt h
        refine ih (addCodeStep rt c) ?_
        rcases hstep rt c with hs | hs
        · rw [hs]; exact h
        · exact Or.inr hs
  have hsteady : ∀ codes : List (List Nat),
      (runRuntime codes).prot = protNone ∨ (runRuntime codes).prot = protRX :=
    fun codes => hfold codes runtimeNew (Or.inl rfl)
  refine ⟨rfl, hsteady, fun codes => ?_, htrace, fun rt code => ?_, fun rt code => ?_⟩
  · rcases hsteady codes with h | h <;> rw [h] <;> rfl
  · rcases htrace rt code with h | h <;> rw [h] <;> rfl
  · cases h : addCode rt code with
    | none => trivial
    | some r => exact hprot rt code r h

end JB
